import Mathlib

/-!
Verification of the symbolic-music codec of the EC2-VAE demo notebook.

The notebook's own code (src/main.ipynb) defines `note_array_to_onehot`
(NoteArray → one-hot piano-roll via numpy fancy indexing) and
`generate_midi_with_melody_chord` (assembling two pretty_midi instrument
tracks and writing one file).  The decoders `note_array_to_notes` and
`chord_to_notes` live in the external `ec2vae` package and are only
invoked from the notebook, so they are modelled here from the spec's
algorithm descriptions (sections 4.2 and 4.3 of the design document).

Machine-level conventions of the embedding:
* numpy integer fancy indexing on an axis of size `n` accepts indices in
  `[-n, n)`, interpreting a negative index `i` as `n + i`, and raises
  `IndexError` otherwise; `npColIndex` reproduces exactly that rule and
  an `IndexError` is rendered as `none` (the caller receives no partial
  matrix, as in Python where the exception aborts the call).
* times are rationals (`ℚ`); the notebook only ever uses
  exactly-representable tempi such as 120 bpm, where the 16th-note step
  is 60/120/4 = 1/8 s.
-/

/-- numpy index resolution on an axis of size `ncols`: indices in
`[0, ncols)` are taken as-is, indices in `[-ncols, 0)` wrap to
`ncols + i`, anything else raises `IndexError` (`none`). -/
def npColIndex (ncols : Nat) (i : Int) : Option Nat :=
  if 0 ≤ i ∧ i < (ncols : Int) then some i.toNat
  else if -(ncols : Int) ≤ i ∧ i < 0 then some ((ncols : Int) + i).toNat
  else none

/-- Row `j` of the identity-like pattern written by
`pr[np.arange(len), note_array] = 1.`: a 130-wide 0/1 row with a single
1 at (resolved) column `j`. -/
def oneHotRow (j : Nat) : List Nat :=
  (List.range 130).map (fun c => if c = j then 1 else 0)

/-- Embedding of the notebook's `note_array_to_onehot`:
`pr = np.zeros((len(note_array), 130)); pr[np.arange(0, len(note_array)),
note_array.astype(int)] = 1.; return pr`.  Each input token contributes
one row whose single 1 sits at the numpy-resolved column of the token;
an index outside numpy's accepted range `[-130, 130)` raises
`IndexError`, rendered as `none` (no partial matrix escapes). -/
def note_array_to_onehot : List Int → Option (List (List Nat))
  | [] => some []
  | tok :: rest =>
    match npColIndex 130 tok, note_array_to_onehot rest with
    | some j, some rows => some (oneHotRow j :: rows)
    | _, _ => none

/-- The inverse transform used by the round-trip claim: per-row argmax,
i.e. the index of the first maximal entry of each row (for a one-hot row
this is the index of its single 1). -/
def rowArgmaxAux : List Nat → Nat → Nat → Nat → Nat
  | [], _, bi, _ => bi
  | x :: xs, bv, bi, i =>
    if bv < x then rowArgmaxAux xs x i (i + 1) else rowArgmaxAux xs bv bi (i + 1)

/-- Index of the first maximal entry of a row (numpy `argmax` on a 1-d
array); 0 on the empty row. -/
def rowArgmax : List Nat → Nat
  | [] => 0
  | x :: xs => rowArgmaxAux xs x 0 1

/-- The PianoRoll→NoteArray direction described by the round-trip claim:
take the index of the 1 in each row (per-row argmax). -/
def pianoroll_to_note_array (rows : List (List Nat)) : List Int :=
  rows.map (fun r => (rowArgmax r : Int))

/-- A 32 × 130 one-hot matrix: 32 rows, each of them `oneHotRow j` for
some column `j < 130`. -/
def IsOneHotMatrix (rows : List (List Nat)) : Prop :=
  rows.length = 32 ∧ ∀ r ∈ rows, ∃ j, j < 130 ∧ r = oneHotRow j

-- basic facts about the encoder

theorem npColIndex_of_nonneg {i : Int} (h0 : 0 ≤ i) (h1 : i < 130) :
    npColIndex 130 i = some i.toNat := by
  unfold npColIndex
  rw [if_pos (by push_cast; omega)]

theorem npColIndex_of_neg {i : Int} (h0 : -130 ≤ i) (h1 : i < 0) :
    npColIndex 130 i = some ((130 : Int) + i).toNat := by
  unfold npColIndex
  rw [if_neg (by push_cast; omega), if_pos (by push_cast; omega)]
  norm_num

theorem npColIndex_of_out {i : Int} (h : 130 ≤ i ∨ i < -130) :
    npColIndex 130 i = none := by
  unfold npColIndex
  rw [if_neg (by push_cast; omega), if_neg (by push_cast; omega)]

theorem note_array_to_onehot_eq_map {ns : List Int}
    (h : ∀ tok ∈ ns, -130 ≤ tok ∧ tok < 130) :
    note_array_to_onehot ns
      = some (ns.map (fun tok => oneHotRow ((if 0 ≤ tok then tok else 130 + tok).toNat))) := by
  induction ns with
  | nil => rfl
  | cons tok rest ih =>
    have htok := h tok (List.mem_cons_self _ _)
    have hrest := ih (fun a ha => h a (List.mem_cons_of_mem _ ha))
    by_cases h0 : 0 ≤ tok
    · rw [note_array_to_onehot, npColIndex_of_nonneg h0 htok.2, hrest]
      simp [h0]
    · push_neg at h0
      rw [note_array_to_onehot, npColIndex_of_neg htok.1 h0, hrest]
      have : ¬ (0 ≤ tok) := not_le.mpr h0
      simp [this]

set_option maxRecDepth 10000 in
theorem rowArgmax_oneHotRow : ∀ j < 130, rowArgmax (oneHotRow j) = j := by decide

theorem oneHotRow_getD : ∀ j < 130, ∀ c < 130,
    (oneHotRow j).getD c 0 = if c = j then 1 else 0 := by
  intro j _ c hc
  simp [oneHotRow, List.getD, List.getElem?_map, List.getElem?_range, hc]

theorem oneHotRow_length (j : Nat) : (oneHotRow j).length = 130 := by
  simp [oneHotRow]

/-- C1: for every NoteArray of length 32 whose tokens are all in [0,129],
`note_array_to_onehot` returns a 32 × 130 matrix in which, for every time
step `t`, entry `[t][NoteArray[t]]` equals 1 and every other entry of row
`t` equals 0 (each row is one-hot with exactly one 1). -/
theorem note_array_to_onehot_valid_onehot (ns : List Int)
    (hlen : ns.length = 32) (htok : ∀ tok ∈ ns, 0 ≤ tok ∧ tok ≤ 129) :
    ∃ rows, note_array_to_onehot ns = some rows ∧
      rows.length = 32 ∧ (∀ r ∈ rows, r.length = 130) ∧
      ∀ t, t < 32 → ∀ c, c < 130 →
        (rows.getD t []).getD c 0 = if (c : Int) = ns.getD t 0 then 1 else 0 := by
  have hrange : ∀ tok ∈ ns, -130 ≤ tok ∧ tok < 130 := by
    intro tok h
    have := htok tok h
    omega
  have heq := note_array_to_onehot_eq_map hrange
  have hmap : ns.map (fun tok => oneHotRow ((if 0 ≤ tok then tok else 130 + tok).toNat))
      = ns.map (fun tok => oneHotRow tok.toNat) := by
    apply List.map_congr_left
    intro tok h
    have := htok tok h
    rw [if_pos this.1]
  rw [hmap] at heq
  refine ⟨_, heq, by simp [hlen], ?_, ?_⟩
  · intro r hr
    obtain ⟨tok, _, rfl⟩ := List.mem_map.mp hr
    exact oneHotRow_length _
  · intro t ht c hc
    have ht' : t < ns.length := hlen ▸ ht
    have htm : t < (ns.map (fun tok => oneHotRow tok.toNat)).length := by
      simpa using ht'
    rw [List.getD_eq_getElem _ _ htm, List.getElem_map, List.getD_eq_getElem _ _ ht']
    have hbd := htok (ns[t]) (ns.getElem_mem ht')
    have hjlt : (ns[t]).toNat < 130 := by omega
    rw [oneHotRow_getD _ hjlt _ hc]
    by_cases hcase : (c : Int) = ns[t]
    · rw [if_pos (by omega), if_pos hcase]
    · rw [if_neg (by omega), if_neg hcase]

/-- Closed witness: C1 at the notebook melody x1. -/
theorem note_array_to_onehot_valid_onehot_witness :
    ∃ rows,
      note_array_to_onehot
        [64, 128, 128, 67, 67, 128, 128, 128, 64, 128, 128, 62, 60, 128, 128, 128,
         62, 128, 128, 64, 67, 128, 128, 64, 62, 128, 128, 128, 129, 129, 129, 129]
        = some rows ∧
      rows.length = 32 ∧ (∀ r ∈ rows, r.length = 130) ∧
      ∀ t, t < 32 → ∀ c, c < 130 →
        (rows.getD t []).getD c 0
          = if (c : Int)
              = ([64, 128, 128, 67, 67, 128, 128, 128, 64, 128, 128, 62, 60, 128, 128, 128,
                  62, 128, 128, 64, 67, 128, 128, 64, 62, 128, 128, 128,
                  129, 129, 129, 129] : List Int).getD t 0 then 1 else 0 :=
  note_array_to_onehot_valid_onehot _ (by decide) (by decide)

theorem onehot_inv_of_onehot_rows : ∀ rows : List (List Nat),
    (∀ r ∈ rows, ∃ j, j < 130 ∧ r = oneHotRow j) →
    note_array_to_onehot (pianoroll_to_note_array rows) = some rows := by
  intro rows
  induction rows with
  | nil => intro _; rfl
  | cons r rest ih =>
    intro h
    obtain ⟨j, hj, rfl⟩ := h r (List.mem_cons_self _ _)
    have hrest := ih (fun a ha => h a (List.mem_cons_of_mem _ ha))
    have hidx : npColIndex 130 ((rowArgmax (oneHotRow j) : Nat) : Int) = some j := by
      rw [rowArgmax_oneHotRow j hj, npColIndex_of_nonneg (by positivity) (by exact_mod_cast hj)]
      simp
    simp only [pianoroll_to_note_array, List.map_cons] at *
    rw [note_array_to_onehot, hidx, hrest]

/-- C2: for every valid NoteArray x (length 32, tokens in [0,129]),
converting x to a PianoRoll with `note_array_to_onehot` and then back via
per-row argmax yields exactly x, and conversely every one-hot 32 × 130
matrix arises this way: the transform is a bijection onto one-hot
matrices. -/
theorem note_array_to_onehot_roundtrip (ns : List Int)
    (hlen : ns.length = 32) (htok : ∀ tok ∈ ns, 0 ≤ tok ∧ tok ≤ 129) :
    (∃ rows, note_array_to_onehot ns = some rows ∧ IsOneHotMatrix rows ∧
      pianoroll_to_note_array rows = ns) ∧
    ∀ rows, IsOneHotMatrix rows →
      note_array_to_onehot (pianoroll_to_note_array rows) = some rows := by
  constructor
  · have hrange : ∀ tok ∈ ns, -130 ≤ tok ∧ tok < 130 := by
      intro tok h
      have := htok tok h
      omega
    have heq := note_array_to_onehot_eq_map hrange
    have hmap : ns.map (fun tok => oneHotRow ((if 0 ≤ tok then tok else 130 + tok).toNat))
        = ns.map (fun tok => oneHotRow tok.toNat) := by
      apply List.map_congr_left
      intro tok h
      rw [if_pos (htok tok h).1]
    rw [hmap] at heq
    refine ⟨_, heq, ⟨by simp [hlen], ?_⟩, ?_⟩
    · intro r hr
      obtain ⟨tok, htokmem, rfl⟩ := List.mem_map.mp hr
      have := htok tok htokmem
      exact ⟨tok.toNat, by omega, rfl⟩
    · unfold pianoroll_to_note_array
      rw [List.map_map]
      have : ∀ tok ∈ ns,
          ((rowArgmax (oneHotRow tok.toNat) : Nat) : Int) = tok := by
        intro tok h
        have hb := htok tok h
        rw [rowArgmax_oneHotRow tok.toNat (by omega)]
        omega
      calc ns.map ((fun r => (rowArgmax r : Int)) ∘ fun tok => oneHotRow tok.toNat)
          = ns.map id := List.map_congr_left (fun tok h => this tok h)
        _ = ns := List.map_id ns
  · intro rows hrows
    exact onehot_inv_of_onehot_rows rows hrows.2

/-- Closed witness: C2 at the constant melody x2 (32 copies of pitch 60). -/
theorem note_array_to_onehot_roundtrip_witness :
    (∃ rows, note_array_to_onehot (List.replicate 32 (60 : Int)) = some rows ∧
      IsOneHotMatrix rows ∧
      pianoroll_to_note_array rows = List.replicate 32 (60 : Int)) ∧
    ∀ rows, IsOneHotMatrix rows →
      note_array_to_onehot (pianoroll_to_note_array rows) = some rows :=
  note_array_to_onehot_roundtrip _ (by decide) (by decide)

/-- C3 counterexample: the sequence starting with token −1 (outside
[0,129]) followed by 31 rests is NOT rejected: `note_array_to_onehot`
silently remaps −1 to column 129 (rest) and returns a full 32 × 130
matrix, so the code does not fail fast on every out-of-range token. -/
theorem onehot_accepts_negative_token :
    note_array_to_onehot ((-1) :: List.replicate 31 (129 : Int))
      = some (List.replicate 32 (oneHotRow 129)) := by
  have h1 : npColIndex 130 (-1) = some 129 := by decide
  have h2 : ∀ k : Nat, note_array_to_onehot (List.replicate k (129 : Int))
      = some (List.replicate k (oneHotRow 129)) := by
    intro k
    induction k with
    | zero => rfl
    | succ n ih =>
      rw [List.replicate_succ, note_array_to_onehot, ih,
        npColIndex_of_nonneg (by norm_num) (by norm_num), List.replicate_succ]
      rfl
  rw [note_array_to_onehot, h1, h2 31]
  rfl

/-- C3 amended: for every input sequence containing a token at or above
130 or below −130 (outside numpy's accepted index range), the encoding
raises `IndexError` and no matrix — partial or otherwise — is returned;
tokens in [−130,−1], although outside [0,129], do not trigger the
failure (they wrap, see the C10 theorem). -/
theorem onehot_out_of_range_fails (ns : List Int)
    (h : ∃ tok ∈ ns, 130 ≤ tok ∨ tok < -130) :
    note_array_to_onehot ns = none := by
  induction ns with
  | nil => obtain ⟨tok, h0, _⟩ := h; exact absurd h0 (List.not_mem_nil tok)
  | cons tok rest ih =>
    obtain ⟨bad, hmem, hbad⟩ := h
    rcases List.mem_cons.mp hmem with rfl | hmem
    · rw [note_array_to_onehot, npColIndex_of_out hbad]
    · rw [note_array_to_onehot, ih ⟨bad, hmem, hbad⟩]
      cases npColIndex 130 tok <;> rfl

/-- Closed witness: C3 amended, at the single token 130 from the spec's
own example. -/
theorem onehot_out_of_range_fails_witness :
    note_array_to_onehot [(130 : Int)] = none :=
  onehot_out_of_range_fails _ ⟨130, List.mem_singleton_self _, by norm_num⟩

/-- C4 counterexample: a length-1 input is accepted without any shape
check: `note_array_to_onehot` returns a 1 × 130 matrix instead of
failing with ShapeMismatch. -/
theorem onehot_accepts_wrong_length :
    note_array_to_onehot [(60 : Int)] = some [oneHotRow 60] := by
  rw [note_array_to_onehot, npColIndex_of_nonneg (by norm_num) (by norm_num)]
  rfl

/-- C4 amended: `note_array_to_onehot` performs no length check at all:
for every input sequence of in-range tokens, of any length n, it
succeeds and returns an n × 130 matrix (`np.zeros((len(note_array),
130))` simply adopts the input's length). -/
theorem onehot_no_length_check (ns : List Int)
    (htok : ∀ tok ∈ ns, 0 ≤ tok ∧ tok ≤ 129) :
    ∃ rows, note_array_to_onehot ns = some rows ∧ rows.length = ns.length := by
  have hrange : ∀ tok ∈ ns, -130 ≤ tok ∧ tok < 130 := by
    intro tok h
    have := htok tok h
    omega
  exact ⟨_, note_array_to_onehot_eq_map hrange, by simp⟩

/-- Closed witness: C4 amended at a 5-token (≠ 32) input. -/
theorem onehot_no_length_check_witness :
    ∃ rows, note_array_to_onehot (List.replicate 5 (64 : Int)) = some rows ∧
      rows.length = (List.replicate 5 (64 : Int)).length :=
  onehot_no_length_check _ (by decide)

/-- C10 counterexample: a sequence containing the negative token −1 CAN
still fail — here because its companion token 130 is out of numpy range —
so the claim's unrestricted "does not fail" is too strong. -/
theorem onehot_negative_can_still_fail :
    note_array_to_onehot [(-1 : Int), 130] = none := by
  rw [note_array_to_onehot, note_array_to_onehot,
    @npColIndex_of_out 130 (Or.inl (by norm_num))]
  cases npColIndex 130 (-1) <;> rfl

/-- C10 amended: for every input sequence whose tokens all lie in
numpy's accepted range [−130,129] and which contains a negative token,
`note_array_to_onehot` does not fail: it silently wraps each negative
token t and sets column 130 + t of that row to 1, and in particular a
lone token −1 is encoded identically to the rest token 129, producing a
well-formed-looking one-hot row for a malformed token. -/
theorem onehot_negative_wraps (ns : List Int)
    (hall : ∀ tok ∈ ns, -130 ≤ tok ∧ tok ≤ 129)
    (hneg : ∃ tok ∈ ns, tok < 0) :
    (∃ rows, note_array_to_onehot ns = some rows ∧ rows.length = ns.length ∧
      ∀ t, t < ns.length → ns.getD t 0 < 0 →
        rows.getD t [] = oneHotRow ((130 : Int) + ns.getD t 0).toNat) ∧
    note_array_to_onehot [(-1 : Int)] = note_array_to_onehot [(129 : Int)] := by
  constructor
  · have hrange : ∀ tok ∈ ns, -130 ≤ tok ∧ tok < 130 := by
      intro tok h
      have := hall tok h
      omega
    refine ⟨_, note_array_to_onehot_eq_map hrange, by simp, ?_⟩
    intro t ht htneg
    have hlen : t < (ns.map (fun tok =>
        oneHotRow ((if 0 ≤ tok then tok else 130 + tok).toNat))).length := by
      simpa using ht
    rw [List.getD_eq_getElem _ _ hlen, List.getElem_map,
      List.getD_eq_getElem _ _ ht] at *
    rw [if_neg (by omega)]
  · rfl

/-- Closed witness: C10 amended at the two-token sequence (−1, 60). -/
theorem onehot_negative_wraps_witness :
    (∃ rows, note_array_to_onehot [(-1 : Int), 60] = some rows ∧
      rows.length = ([(-1 : Int), 60]).length ∧
      ∀ t, t < ([(-1 : Int), 60]).length → ([(-1 : Int), 60]).getD t 0 < 0 →
        rows.getD t [] = oneHotRow ((130 : Int) + ([(-1 : Int), 60]).getD t 0).toNat) ∧
    note_array_to_onehot [(-1 : Int)] = note_array_to_onehot [(129 : Int)] :=
  onehot_negative_wraps _ (by decide) ⟨-1, by decide, by decide⟩

/-- A decoded musical event: MIDI pitch, start time and end time in
seconds (rationals; the notebook only uses exactly representable
tempi). -/
structure NoteEvent where
  pitch : Nat
  start : ℚ
  stop : ℚ
deriving DecidableEq

/-- Duration of one 16th-note step at the given tempo:
60 / bpm / 4 seconds. -/
def stepDur (bpm : ℚ) : ℚ := 60 / bpm / 4

/-- Modelled from the spec: closing an active run at step boundary `t`
(section 4.2: "close it (emit a NoteEvent spanning from its run-start to
the current step boundary)"); `none` means no pitch is active and
nothing is emitted. -/
def flushEv (t : Nat) : Option (Nat × Nat) → List (Nat × Nat × Nat)
  | none => []
  | some (p, s) => [(p, s, t)]

/-- Modelled from the spec: the left-to-right scan of section 4.2 for
the external `ec2vae` decoder `note_array_to_notes` (absent from
src/, only invoked there).  State is the optional (active pitch,
run-start step); `t` is the current step index.  Categories 0–127 close
any active run and open a new one, 128 extends (a no-op when nothing is
active), 129 closes any active run; at sequence end an active run is
closed at the end boundary.  Events are (pitch, startStep, endStep). -/
def decodeSteps : List Nat → Nat → Option (Nat × Nat) → List (Nat × Nat × Nat)
  | [], t, act => flushEv t act
  | tok :: rest, t, act =>
    if tok ≤ 127 then flushEv t act ++ decodeSteps rest (t + 1) (some (tok, t))
    else if tok = 128 then decodeSteps rest (t + 1) act
    else flushEv t act ++ decodeSteps rest (t + 1) none

/-- Conversion of a step-indexed event to seconds:
times are start_offset + step_index * step_duration (section 4.2). -/
def stepToEvent (bpm startOffset : ℚ) (ev : Nat × Nat × Nat) : NoteEvent :=
  ⟨ev.1, startOffset + ev.2.1 * stepDur bpm, startOffset + ev.2.2 * stepDur bpm⟩

/-- Modelled from the spec: the full note-array-to-notes decoder of
section 4.2 (token sequence, tempo in bpm, start time offset). -/
def note_array_to_notes (note_array : List Nat) (bpm : ℚ) (start : ℚ) : List NoteEvent :=
  (decodeSteps note_array 0 none).map (stepToEvent bpm start)

/-- The notebook's example melody x1 ("From the new world"). -/
def x1 : List Nat :=
  [64, 128, 128, 67, 67, 128, 128, 128, 64, 128, 128, 62, 60, 128, 128, 128,
   62, 128, 128, 64, 67, 128, 128, 64, 62, 128, 128, 128, 129, 129, 129, 129]

theorem decodeSteps_cons (tok : Nat) (rest : List Nat) (t : Nat)
    (act : Option (Nat × Nat)) :
    decodeSteps (tok :: rest) t act =
      if tok ≤ 127 then flushEv t act ++ decodeSteps rest (t + 1) (some (tok, t))
      else if tok = 128 then decodeSteps rest (t + 1) act
      else flushEv t act ++ decodeSteps rest (t + 1) none := rfl

/-- Step-level chaining: every event starts no earlier than `lo`, has a
positive extent, and ends no later than its successor starts. -/
def ChainFrom : Nat → List (Nat × Nat × Nat) → Prop
  | _, [] => True
  | lo, ev :: rest => lo ≤ ev.2.1 ∧ ev.2.1 < ev.2.2 ∧ ChainFrom ev.2.2 rest

theorem ChainFrom.mono {lo lo' : Nat} (h : lo' ≤ lo) :
    ∀ {l : List (Nat × Nat × Nat)}, ChainFrom lo l → ChainFrom lo' l := by
  intro l
  cases l with
  | nil => intro _; trivial
  | cons ev rest =>
    intro hc
    exact ⟨le_trans h hc.1, hc.2.1, hc.2.2⟩

theorem decodeSteps_chain : ∀ (ns : List Nat) (t : Nat) (act : Option (Nat × Nat)),
    (∀ p s, act = some (p, s) → s < t) →
    ChainFrom (match act with | some (_, s) => s | none => t) (decodeSteps ns t act) := by
  intro ns
  induction ns with
  | nil =>
    intro t act hact
    cases act with
    | none => exact trivial
    | some ps =>
      obtain ⟨p, s⟩ := ps
      exact ⟨le_refl s, hact p s rfl, trivial⟩
  | cons tok rest ih =>
    intro t act hact
    by_cases h1 : tok ≤ 127
    · have hnew : ∀ p s, (some (tok, t) : Option (Nat × Nat)) = some (p, s) → s < t + 1 := by
        intro p s h
        injection h with h
        injection h with _ h
        omega
      have htail : ChainFrom t (decodeSteps rest (t + 1) (some (tok, t))) :=
        ih (t + 1) (some (tok, t)) hnew
      cases act with
      | none =>
        simpa [decodeSteps, h1, flushEv] using htail
      | some ps =>
        obtain ⟨p, s⟩ := ps
        have hs := hact p s rfl
        simp only [decodeSteps, h1, if_true, flushEv, List.singleton_append]
        exact ⟨le_refl s, hs, htail⟩
    · by_cases h2 : tok = 128
      · cases act with
        | none =>
          have htail : ChainFrom (t + 1) (decodeSteps rest (t + 1) none) :=
            ih (t + 1) none (by intro p s h; cases h)
          simp only [decodeSteps, h1, if_false, h2, if_true]
          exact ChainFrom.mono (by omega) htail
        | some ps =>
          obtain ⟨p, s⟩ := ps
          have htail : ChainFrom s (decodeSteps rest (t + 1) (some (p, s))) :=
            ih (t + 1) (some (p, s)) (by
              intro q u h
              injection h with h
              injection h with _ h
              have := hact p s rfl
              omega)
          simpa [decodeSteps, h1, h2] using htail
      · have htail : ChainFrom (t + 1) (decodeSteps rest (t + 1) none) :=
          ih (t + 1) none (by intro p s h; cases h)
        cases act with
        | none =>
          simp only [decodeSteps, h1, if_false, h2, flushEv, List.nil_append]
          exact ChainFrom.mono (by omega) htail
        | some ps =>
          obtain ⟨p, s⟩ := ps
          simp only [decodeSteps, h1, if_false, h2, flushEv, List.singleton_append]
          exact ⟨le_refl s, hact p s rfl, ChainFrom.mono (Nat.le_succ t) htail⟩

theorem decodeSteps_length : ∀ (ns : List Nat) (t : Nat) (act : Option (Nat × Nat)),
    (decodeSteps ns t act).length
      ≤ ns.length + (match act with | some _ => 1 | none => 0) := by
  intro ns
  induction ns with
  | nil =>
    intro t act
    cases act with
    | none => simp [decodeSteps, flushEv]
    | some ps => obtain ⟨p, s⟩ := ps; simp [decodeSteps, flushEv]
  | cons tok rest ih =>
    intro t act
    by_cases h1 : tok ≤ 127
    · have hrec : (decodeSteps rest (t + 1) (some (tok, t))).length ≤ rest.length + 1 :=
        ih (t + 1) (some (tok, t))
      cases act with
      | none =>
        simp only [decodeSteps, h1, if_true, flushEv, List.nil_append, List.length_cons]
        omega
      | some ps =>
        obtain ⟨p, s⟩ := ps
        simp only [decodeSteps, h1, if_true, flushEv, List.singleton_append,
          List.length_cons]
        omega
    · by_cases h2 : tok = 128
      · cases act with
        | none =>
          have hrec : (decodeSteps rest (t + 1) none).length ≤ rest.length + 0 :=
            ih (t + 1) none
          rw [decodeSteps_cons, if_neg h1, if_pos h2]
          simp only [List.length_cons]
          omega
        | some ps =>
          obtain ⟨p, s⟩ := ps
          have hrec : (decodeSteps rest (t + 1) (some (p, s))).length ≤ rest.length + 1 :=
            ih (t + 1) (some (p, s))
          rw [decodeSteps_cons, if_neg h1, if_pos h2]
          simp only [List.length_cons]
          omega
      · have hrec : (decodeSteps rest (t + 1) none).length ≤ rest.length + 0 :=
          ih (t + 1) none
        cases act with
        | none =>
          simp only [decodeSteps, h1, if_false, h2, flushEv, List.nil_append,
            List.length_cons]
          omega
        | some ps =>
          obtain ⟨p, s⟩ := ps
          simp only [decodeSteps, h1, if_false, h2, flushEv, List.singleton_append,
            List.length_cons]
          omega

/-- Chaining in seconds: every event starts no earlier than `lo`, has
positive extent, and ends no later than its successor starts. -/
def ChainedFromQ : ℚ → List NoteEvent → Prop
  | _, [] => True
  | lo, e :: rest => lo ≤ e.start ∧ e.start < e.stop ∧ ChainedFromQ e.stop rest

theorem stepDur_pos {bpm : ℚ} (hb : 0 < bpm) : 0 < stepDur bpm := by
  unfold stepDur
  positivity

theorem chainedQ_of_chain (bpm st : ℚ) (hb : 0 < bpm) :
    ∀ (l : List (Nat × Nat × Nat)) (lo : Nat), ChainFrom lo l →
      ChainedFromQ (st + lo * stepDur bpm) (l.map (stepToEvent bpm st)) := by
  intro l
  induction l with
  | nil => intro lo _; trivial
  | cons ev rest ih =>
    intro lo hc
    obtain ⟨p, s, e⟩ := ev
    obtain ⟨h1, h2, h3⟩ := hc
    refine ⟨?_, ?_, ih e h3⟩
    · have : (lo : ℚ) ≤ (s : ℚ) := by exact_mod_cast h1
      exact add_le_add_left (mul_le_mul_of_nonneg_right this (le_of_lt (stepDur_pos hb))) st
    · have : (s : ℚ) < (e : ℚ) := by exact_mod_cast h2
      exact add_lt_add_left (mul_lt_mul_of_pos_right this (stepDur_pos hb)) st

theorem ChainedFromQ.le_start : ∀ {lo : ℚ} {l : List NoteEvent},
    ChainedFromQ lo l → ∀ e ∈ l, lo ≤ e.start := by
  intro lo l
  induction l generalizing lo with
  | nil => intro _ e he; exact absurd he (List.not_mem_nil e)
  | cons f rest ih =>
    intro hc e he
    rcases List.mem_cons.mp he with rfl | he
    · exact hc.1
    · exact le_trans (le_of_lt (lt_of_le_of_lt hc.1 hc.2.1)) (ih hc.2.2 e he)

theorem ChainedFromQ.pairwise : ∀ {lo : ℚ} {l : List NoteEvent},
    ChainedFromQ lo l → l.Pairwise (fun a b => a.stop ≤ b.start) := by
  intro lo l
  induction l generalizing lo with
  | nil => intro _; exact List.Pairwise.nil
  | cons f rest ih =>
    intro hc
    exact List.Pairwise.cons (fun b hb => hc.2.2.le_start b hb) (ih hc.2.2)

theorem ChainedFromQ.extent : ∀ {lo : ℚ} {l : List NoteEvent},
    ChainedFromQ lo l → ∀ e ∈ l, lo ≤ e.start ∧ e.start < e.stop := by
  intro lo l
  induction l generalizing lo with
  | nil => intro _ e he; exact absurd he (List.not_mem_nil e)
  | cons f rest ih =>
    intro hc e he
    rcases List.mem_cons.mp he with rfl | he
    · exact ⟨hc.1, hc.2.1⟩
    · have := ih hc.2.2 e he
      exact ⟨le_trans (le_of_lt (lt_of_le_of_lt hc.1 hc.2.1)) this.1, this.2⟩

/-- C6: for every 32-step token sequence with tokens in [0,129] and a
positive tempo, the note-array-to-notes decoder returns NoteEvents that
are pairwise non-overlapping in time and listed in onset order (each
event ends no later than every later event starts, and each extends
forward from a start no earlier than the offset), the number of events
is at most 32, and the all-rest input (32 copies of token 129) yields
exactly zero NoteEvents. -/
theorem note_array_to_notes_wellformed (ns : List Nat) (bpm st : ℚ)
    (hlen : ns.length = 32) (htok : ∀ tok ∈ ns, tok ≤ 129) (hb : 0 < bpm) :
    (note_array_to_notes ns bpm st).Pairwise (fun a b => a.stop ≤ b.start) ∧
    (∀ e ∈ note_array_to_notes ns bpm st, st ≤ e.start ∧ e.start < e.stop) ∧
    (note_array_to_notes ns bpm st).length ≤ 32 ∧
    note_array_to_notes (List.replicate 32 129) bpm st = [] := by
  have hchain : ChainFrom 0 (decodeSteps ns 0 none) :=
    decodeSteps_chain ns 0 none (by intro p s h; cases h)
  have hq : ChainedFromQ (st + (0 : Nat) * stepDur bpm)
      ((decodeSteps ns 0 none).map (stepToEvent bpm st)) :=
    chainedQ_of_chain bpm st hb _ 0 hchain
  have hst : st + ((0 : Nat) : ℚ) * stepDur bpm = st := by
    push_cast
    ring
  rw [hst] at hq
  refine ⟨hq.pairwise, hq.extent, ?_, rfl⟩
  have := decodeSteps_length ns 0 none
  simpa [note_array_to_notes, hlen] using this

/-- Closed witness: C6 at the notebook melody x1 with bpm 120, offset 0. -/
theorem note_array_to_notes_wellformed_witness :
    (note_array_to_notes x1 120 0).Pairwise (fun a b => a.stop ≤ b.start) ∧
    (∀ e ∈ note_array_to_notes x1 120 0, (0 : ℚ) ≤ e.start ∧ e.start < e.stop) ∧
    (note_array_to_notes x1 120 0).length ≤ 32 ∧
    note_array_to_notes (List.replicate 32 129) 120 0 = [] :=
  note_array_to_notes_wellformed x1 120 0 (by decide) (by decide) (by norm_num)

theorem decodeSteps_replicate_hold : ∀ (k : Nat) (rest : List Nat) (t : Nat),
    decodeSteps (List.replicate k 128 ++ rest) t none = decodeSteps rest (t + k) none := by
  intro k
  induction k with
  | zero => intro rest t; rfl
  | succ n ih =>
    intro rest t
    rw [List.replicate_succ, List.cons_append, decodeSteps_cons,
      if_neg (by omega), if_pos rfl, ih rest (t + 1)]
    congr 1
    omega

/-- C8: a 32-step token sequence beginning with one or more hold tokens
(128) with no preceding onset yields no NoteEvent from that leading run:
decoding is defined (no error) and the output is exactly the decode of
the remaining suffix, resumed at the step index right after the holds
with still no pitch active; in particular an all-hold input yields zero
NoteEvents. -/
theorem note_array_to_notes_leading_holds (k : Nat) (rest : List Nat) (bpm st : ℚ)
    (hk : 1 ≤ k) (hlen : k + rest.length = 32) :
    note_array_to_notes (List.replicate k 128 ++ rest) bpm st
      = (decodeSteps rest k none).map (stepToEvent bpm st) ∧
    note_array_to_notes (List.replicate 32 128) bpm st = [] := by
  constructor
  · unfold note_array_to_notes
    rw [decodeSteps_replicate_hold k rest 0]
    congr 2
    omega
  · unfold note_array_to_notes
    have h32 : (List.replicate 32 (128 : Nat)) = List.replicate 32 128 ++ ([] : List Nat) := by
      simp
    rw [h32, decodeSteps_replicate_hold 32 [] 0]
    rfl

/-- Closed witness: C8 at the all-hold input (k = 32, empty suffix). -/
theorem note_array_to_notes_leading_holds_witness :
    note_array_to_notes (List.replicate 32 128 ++ []) 120 0
      = (decodeSteps [] 32 none).map (stepToEvent 120 0) ∧
    note_array_to_notes (List.replicate 32 128) 120 0 = [] :=
  note_array_to_notes_leading_holds 32 [] 120 0 (by norm_num) (by simp)

/-- C5 counterexample: on the documented example melody x1 at 120 bpm
and offset 0, the spec's own scan algorithm (section 4.2) produces 11
NoteEvents — one per onset token — not the 8 claimed: the claim's count
contradicts the algorithm it accompanies. -/
theorem note_array_to_notes_x1_not_eight :
    (note_array_to_notes x1 120 0).length = 11 ∧
    (note_array_to_notes x1 120 0).length ≠ 8 := by
  constructor <;> decide

/-- C5 amended: on the example melody x1 at 120 bpm and offset 0 the
decoder produces exactly 11 NoteEvents (one per onset token in x1; the
trailing rest run produces none), and the first event has pitch 64,
start 0.0 s and end 0.375 s (3 steps of 0.125 s each). -/
theorem note_array_to_notes_x1_events :
    (note_array_to_notes x1 120 0).length = 11 ∧
    (note_array_to_notes x1 120 0).head? = some ⟨64, 0, 3 / 8⟩ := by
  have hstep : decodeSteps x1 0 none
      = [(64, 0, 3), (67, 3, 4), (67, 4, 8), (64, 8, 11), (62, 11, 12), (60, 12, 16),
         (62, 16, 19), (64, 19, 20), (67, 20, 23), (64, 23, 24), (62, 24, 28)] := by
    decide
  refine ⟨by decide, ?_⟩
  unfold note_array_to_notes
  rw [hstep]
  simp only [List.map_cons, List.head?_cons]
  norm_num [stepToEvent, stepDur]

/-- Modelled from the spec: the per-pitch-class run-length merge of
section 4.3 for the external `ec2vae` decoder `chord_to_notes` (absent
from src/, only invoked there).  Over one class's 0/1 column, "active at
step t" (entry 1) is treated as onset-or-hold and "inactive" as rest;
the output is the list of (startStep, endStep) maximal active runs. -/
def chordClassSteps : List Nat → Nat → Option Nat → List (Nat × Nat)
  | [], _, none => []
  | [], t, some s => [(s, t)]
  | x :: rest, t, none =>
    if x = 1 then chordClassSteps rest (t + 1) (some t) else chordClassSteps rest (t + 1) none
  | x :: rest, t, some s =>
    if x = 1 then chordClassSteps rest (t + 1) (some s)
    else (s, t) :: chordClassSteps rest (t + 1) none

/-- Column `c` of a chroma matrix: the 0/1 activity of pitch class `c`
at each step. -/
def chordColumn (chroma : List (List Nat)) (c : Nat) : List Nat :=
  chroma.map (fun row => row.getD c 0)

/-- Modelled from the spec: events of a single pitch class, anchored to
the documented fixed octave (pitch class c → MIDI pitch 48 + c), with
run boundaries converted to seconds exactly as in section 4.2. -/
def classToEvents (bpm st : ℚ) (c : Nat) (chroma : List (List Nat)) : List NoteEvent :=
  (chordClassSteps (chordColumn chroma c) 0 none).map
    (fun ev => ⟨48 + c, st + ev.1 * stepDur bpm, st + ev.2 * stepDur bpm⟩)

/-- Ordering used for the spec's "sorted by start time then pitch". -/
def evLE (a b : NoteEvent) : Bool :=
  if a.start < b.start then true
  else if b.start < a.start then false
  else a.pitch ≤ b.pitch

def insertEv (e : NoteEvent) : List NoteEvent → List NoteEvent
  | [] => [e]
  | f :: rest => if evLE e f then e :: f :: rest else f :: insertEv e rest

/-- Insertion sort by (start time, pitch). -/
def sortEvents : List NoteEvent → List NoteEvent
  | [] => []
  | e :: rest => insertEv e (sortEvents rest)

/-- Modelled from the spec: the chord-to-notes decoder of section 4.3 —
for each of the 12 pitch classes independently run the run-length merge,
then output the union of all per-class NoteEvents sorted by start time
then pitch. -/
def chord_to_notes (chroma : List (List Nat)) (bpm : ℚ) (start : ℚ) : List NoteEvent :=
  sortEvents (((List.range 12).map (fun c => classToEvents bpm start c chroma)).flatten)

/-- The notebook's A-minor chroma row (pitch classes A, C, E). -/
def amin : List Nat := [1, 0, 0, 0, 1, 0, 0, 0, 0, 1, 0, 0]

/-- The notebook's G-major chroma row (pitch classes G, B, D). -/
def gmaj : List Nat := [0, 0, 1, 0, 0, 0, 0, 1, 0, 0, 0, 1]

theorem chordClassSteps_cons_none (x : Nat) (rest : List Nat) (t : Nat) :
    chordClassSteps (x :: rest) t none =
      if x = 1 then chordClassSteps rest (t + 1) (some t)
      else chordClassSteps rest (t + 1) none := rfl

theorem chordClassSteps_cons_some (x : Nat) (rest : List Nat) (t s : Nat) :
    chordClassSteps (x :: rest) t (some s) =
      if x = 1 then chordClassSteps rest (t + 1) (some s)
      else (s, t) :: chordClassSteps rest (t + 1) none := rfl

theorem chordClassSteps_zeros_some : ∀ (k t s : Nat),
    chordClassSteps (List.replicate k 0) t (some s) = [(s, t)] := by
  intro k
  induction k with
  | zero => intro t s; rfl
  | succ n ih =>
    intro t s
    rw [List.replicate_succ, chordClassSteps_cons_some, if_neg (by omega)]
    have hz : ∀ (m u : Nat), chordClassSteps (List.replicate m 0) u none = [] := by
      intro m
      induction m with
      | zero => intro u; rfl
      | succ p ihp =>
        intro u
        rw [List.replicate_succ, chordClassSteps_cons_none, if_neg (by omega)]
        exact ihp (u + 1)
    rw [hz n (t + 1)]

theorem chordClassSteps_ones_some : ∀ (j : Nat) (rest : List Nat) (t s : Nat),
    chordClassSteps (List.replicate j 1 ++ rest) t (some s)
      = chordClassSteps rest (t + j) (some s) := by
  intro j
  induction j with
  | zero => intro rest t s; rfl
  | succ n ih =>
    intro rest t s
    rw [List.replicate_succ, List.cons_append, chordClassSteps_cons_some, if_pos rfl,
      ih rest (t + 1) s]
    congr 1
    omega

theorem chordClassSteps_zeros_prefix : ∀ (i : Nat) (rest : List Nat) (t : Nat),
    chordClassSteps (List.replicate i 0 ++ rest) t none
      = chordClassSteps rest (t + i) none := by
  intro i
  induction i with
  | zero => intro rest t; rfl
  | succ n ih =>
    intro rest t
    rw [List.replicate_succ, List.cons_append, chordClassSteps_cons_none, if_neg (by omega),
      ih rest (t + 1)]
    congr 1
    omega

theorem chordClassSteps_block (i j k : Nat) (hj : 1 ≤ j) :
    chordClassSteps (List.replicate i 0 ++ List.replicate j 1 ++ List.replicate k 0) 0 none
      = [(i, i + j)] := by
  obtain ⟨m, rfl⟩ : ∃ m, j = m + 1 := ⟨j - 1, by omega⟩
  rw [List.append_assoc, chordClassSteps_zeros_prefix, List.replicate_succ,
    List.cons_append, chordClassSteps_cons_none, if_pos rfl,
    chordClassSteps_ones_some, chordClassSteps_zeros_some]
  have h2 : 0 + i + 1 + m = i + (m + 1) := by omega
  have h1 : 0 + i = i := by omega
  rw [h2, h1]

/-- C7: a pitch class whose activity column is a single contiguous block
of steps yields exactly one NoteEvent spanning that whole block — never
one event per step and never split into sub-blocks — and decoding 16
steps of the amin chroma followed by 16 steps of the gmaj chroma (at 120
bpm, offset 0; one step = 1/8 s) yields exactly the six events implied
by the chords' active pitch classes, each spanning its full 16-step
(2-second) block, sorted by start time then pitch under the documented
48 + class octave anchoring. -/
theorem chord_to_notes_contiguous (chroma : List (List Nat)) (c i j k : Nat) (bpm st : ℚ)
    (hc : c < 12) (hj : 1 ≤ j)
    (hcol : chordColumn chroma c
      = List.replicate i 0 ++ List.replicate j 1 ++ List.replicate k 0) :
    classToEvents bpm st c chroma
      = [⟨48 + c, st + (i : ℚ) * stepDur bpm, st + ((i + j : Nat) : ℚ) * stepDur bpm⟩] ∧
    chord_to_notes (List.replicate 16 amin ++ List.replicate 16 gmaj) 120 0
      = [⟨48, 0, 2⟩, ⟨52, 0, 2⟩, ⟨57, 0, 2⟩, ⟨50, 2, 4⟩, ⟨55, 2, 4⟩, ⟨59, 2, 4⟩] := by
  constructor
  · unfold classToEvents
    rw [hcol, chordClassSteps_block i j k hj]
    rfl
  · have h0 : chordClassSteps
        (chordColumn (List.replicate 16 amin ++ List.replicate 16 gmaj) 0) 0 none
        = [(0, 16)] := by decide
    have h1 : chordClassSteps
        (chordColumn (List.replicate 16 amin ++ List.replicate 16 gmaj) 1) 0 none
        = [] := by decide
    have h2 : chordClassSteps
        (chordColumn (List.replicate 16 amin ++ List.replicate 16 gmaj) 2) 0 none
        = [(16, 32)] := by decide
    have h3 : chordClassSteps
        (chordColumn (List.replicate 16 amin ++ List.replicate 16 gmaj) 3) 0 none
        = [] := by decide
    have h4 : chordClassSteps
        (chordColumn (List.replicate 16 amin ++ List.replicate 16 gmaj) 4) 0 none
        = [(0, 16)] := by decide
    have h5 : chordClassSteps
        (chordColumn (List.replicate 16 amin ++ List.replicate 16 gmaj) 5) 0 none
        = [] := by decide
    have h6 : chordClassSteps
        (chordColumn (List.replicate 16 amin ++ List.replicate 16 gmaj) 6) 0 none
        = [] := by decide
    have h7 : chordClassSteps
        (chordColumn (List.replicate 16 amin ++ List.replicate 16 gmaj) 7) 0 none
        = [(16, 32)] := by decide
    have h8 : chordClassSteps
        (chordColumn (List.replicate 16 amin ++ List.replicate 16 gmaj) 8) 0 none
        = [] := by decide
    have h9 : chordClassSteps
        (chordColumn (List.replicate 16 amin ++ List.replicate 16 gmaj) 9) 0 none
        = [(0, 16)] := by decide
    have h10 : chordClassSteps
        (chordColumn (List.replicate 16 amin ++ List.replicate 16 gmaj) 10) 0 none
        = [] := by decide
    have h11 : chordClassSteps
        (chordColumn (List.replicate 16 amin ++ List.replicate 16 gmaj) 11) 0 none
        = [(16, 32)] := by decide
    have hrange : List.range 12 = [0, 1, 2, 3, 4, 5, 6, 7, 8, 9, 10, 11] := by decide
    unfold chord_to_notes
    rw [hrange]
    simp only [List.map_cons, List.map_nil, classToEvents, h0, h1, h2, h3, h4, h5, h6, h7,
      h8, h9, h10, h11, List.flatten]
    norm_num [sortEvents, insertEv, evLE, stepDur]

/-- Closed witness: C7 at pitch class 9 (A) of the amin/gmaj example,
whose column is a single block of 16 active steps followed by 16
inactive ones. -/
theorem chord_to_notes_contiguous_witness :
    classToEvents 120 0 9 (List.replicate 16 amin ++ List.replicate 16 gmaj)
      = [⟨48 + 9, 0 + ((0 : Nat) : ℚ) * stepDur 120, 0 + ((0 + 16 : Nat) : ℚ) * stepDur 120⟩] ∧
    chord_to_notes (List.replicate 16 amin ++ List.replicate 16 gmaj) 120 0
      = [⟨48, 0, 2⟩, ⟨52, 0, 2⟩, ⟨57, 0, 2⟩, ⟨50, 2, 4⟩, ⟨55, 2, 4⟩, ⟨59, 2, 4⟩] :=
  chord_to_notes_contiguous (List.replicate 16 amin ++ List.replicate 16 gmaj)
    9 0 16 16 120 0 (by norm_num) (by norm_num) (by decide)

/-- Shallow rendering of `pretty_midi.Instrument(program)`: a program
number and the notes later assigned to `ins.notes`. -/
structure Instrument where
  program : Nat
  notes : List NoteEvent

/-- Shallow rendering of a `pretty_midi.PrettyMIDI` container: the list
of instrument tracks appended to `midi.instruments`. -/
structure PrettyMIDIFile where
  instruments : List Instrument

/-- One `midi.write(fn)` effect: the path written and the MIDI object
serialized there. -/
structure MidiWrite where
  path : String
  midi : PrettyMIDIFile

/-- Embedding of the notebook's `generate_midi_with_melody_chord(fn,
mel_notes, c_notes)`: build a PrettyMIDI, create `ins1 = Instrument(0)`
with the melody notes and `ins2 = Instrument(0)` with the chord notes,
append both, and write once to `fn`.  The returned list is the sequence
of write effects the call performs. -/
def generate_midi_with_melody_chord (fn : String) (mel_notes c_notes : List NoteEvent) :
    List MidiWrite :=
  let ins1 : Instrument := ⟨0, mel_notes⟩
  let ins2 : Instrument := ⟨0, c_notes⟩
  let midi : PrettyMIDIFile := ⟨[ins1, ins2]⟩
  [⟨fn, midi⟩]

/-- C9: every export call of `generate_midi_with_melody_chord` writes
exactly one MIDI file, at the caller-supplied path, containing exactly
two instrument tracks — the first holding the melody NoteEvents and the
second the chord NoteEvents — and both tracks use the fixed default
program number 0. -/
theorem generate_midi_one_file_two_tracks (fn : String) (mel c : List NoteEvent) :
    ∃ w : MidiWrite, generate_midi_with_melody_chord fn mel c = [w] ∧
      w.path = fn ∧
      w.midi.instruments.length = 2 ∧
      w.midi.instruments.map Instrument.program = [0, 0] ∧
      w.midi.instruments.map Instrument.notes = [mel, c] :=
  ⟨⟨fn, ⟨[⟨0, mel⟩, ⟨0, c⟩]⟩⟩, rfl, rfl, rfl, rfl, rfl⟩
